import Mathlib

/-!
Verification of the streaming log-file segmentation engine of the
chatlog repository (src/app/workers/parse.worker.ts, plus the file-size
gate of the calling page).  JS strings are embedded as `List Char`;
the regular expressions of the source are hand-translated to
executable character-list matchers with JS leftmost-match semantics.
-/

/-- JS regex `\d` on a character. -/
def isDigitCh (c : Char) : Bool := decide (48 ≤ c.toNat ∧ c.toNat ≤ 57)

/-- JS regex `\s` (WhiteSpace plus LineTerminator) on a character. -/
def jsWS (c : Char) : Bool :=
  decide ((9 ≤ c.toNat ∧ c.toNat ≤ 13) ∨ c.toNat = 32 ∨ c.toNat = 160 ∨ c.toNat = 5760 ∨
    (8192 ≤ c.toNat ∧ c.toNat ≤ 8202) ∨ c.toNat = 8232 ∨ c.toNat = 8233 ∨
    c.toNat = 8239 ∨ c.toNat = 8287 ∨ c.toNat = 12288 ∨ c.toNat = 65279)

/-- JS regex `\w` (word character, used by the boundary assertion of a regex). -/
def wordChar (c : Char) : Bool :=
  decide ('A' ≤ c ∧ c ≤ 'Z') || decide ('a' ≤ c ∧ c ≤ 'z') ||
  decide ('0' ≤ c ∧ c ≤ '9') || c == '_'

/-- ASCII upper-casing; on the characters a case-insensitive JS regex can
match against an ASCII pattern this agrees with `String.prototype.toUpperCase`. -/
def asciiUpper (c : Char) : Char :=
  if 97 ≤ c.toNat ∧ c.toNat ≤ 122 then Char.ofNat (c.toNat - 32) else c

/-- JS `String.prototype.trim` (strips `\s` characters on both ends). -/
def trimJS (s : List Char) : List Char :=
  ((s.dropWhile jsWS).reverse.dropWhile jsWS).reverse

/-- Literal-sequence test used for the anchored literal regexes of the source. -/
def startsWithSeq : List Char → List Char → Bool
  | [], _ => true
  | _ :: _, [] => false
  | p :: ps, c :: cs => p == c && startsWithSeq ps cs

/-- Matcher for `detectTimestamp`: one attempt of the regex
`\d{4}-\d{2}-\d{2}[T\s]\d{2}:\d{2}:\d{2}(?:\.\d+)?` anchored at the head,
returning the matched substring. -/
def matchTimestampAt : List Char → Option (List Char)
  | y1 :: y2 :: y3 :: y4 :: d1 :: m1 :: m2 :: d2 :: a1 :: a2 :: sep :: h1 :: h2 :: c1 ::
      n1 :: n2 :: c2 :: s1 :: s2 :: rest =>
    if isDigitCh y1 && isDigitCh y2 && isDigitCh y3 && isDigitCh y4 && d1 == '-' &&
       isDigitCh m1 && isDigitCh m2 && d2 == '-' && isDigitCh a1 && isDigitCh a2 &&
       (sep == 'T' || jsWS sep) && isDigitCh h1 && isDigitCh h2 && c1 == ':' &&
       isDigitCh n1 && isDigitCh n2 && c2 == ':' && isDigitCh s1 && isDigitCh s2 then
      let base := [y1, y2, y3, y4, d1, m1, m2, d2, a1, a2, sep, h1, h2, c1, n1, n2, c2, s1, s2]
      match rest with
      | '.' :: r2 =>
        let frac := r2.takeWhile isDigitCh
        if frac.isEmpty then some base else some (base ++ '.' :: frac)
      | _ => some base
    else none
  | _ => none

/-- Source `detectTimestamp`: first (leftmost) match of the timestamp regex. -/
def detectTimestamp : List Char → Option (List Char)
  | [] => none
  | c :: cs =>
    match matchTimestampAt (c :: cs) with
    | some m => some m
    | none => detectTimestamp cs

/-- Alternation of `detectSeverity`, in the order of the source regex
`\b(ERROR|WARN|WARNING|INFO|DEBUG|TRACE|FATAL)\b/i`. -/
def sevTokens : List (List Char) :=
  ["ERROR".data, "WARN".data, "WARNING".data, "INFO".data,
   "DEBUG".data, "TRACE".data, "FATAL".data]

/-- Case-insensitive (ASCII canonicalization, as for a non-unicode JS regex)
prefix match of one alternation token. -/
def ciMatchTok : List Char → List Char → Bool
  | [], _ => true
  | _ :: _, [] => false
  | t :: ts, c :: cs => asciiUpper c == t && ciMatchTok ts cs

/-- Word-boundary assertion after a matched token. -/
def boundaryAfter : List Char → Bool
  | [] => true
  | c :: _ => !wordChar c

/-- Try the alternation tokens in order at a fixed position (JS backtracking:
a token whose trailing `\b` fails yields to the next alternative). -/
def trySevTokens (s : List Char) : List (List Char) → Option (List Char)
  | [] => none
  | t :: ts =>
    if ciMatchTok t s && boundaryAfter (s.drop t.length)
    then some ((s.take t.length).map asciiUpper)
    else trySevTokens s ts

/-- Leftmost-position scan for the severity regex; `prevWord` tracks whether
the previous character is a word character (for the leading `\b`). -/
def detectSeverityAux (prevWord : Bool) : List Char → Option (List Char)
  | [] => none
  | c :: cs =>
    match (if prevWord then none else trySevTokens (c :: cs) sevTokens) with
    | some m => some m
    | none => detectSeverityAux (wordChar c) cs

/-- Source `detectSeverity`: first whole-word case-insensitive severity token,
returned upper-cased (`match[1].toUpperCase()`). -/
def detectSeverity (line : List Char) : Option (List Char) :=
  detectSeverityAux false line

/-- Source `isJsonStart`: regex `^\s*\{`. -/
def isJsonStart (line : List Char) : Bool :=
  (line.dropWhile jsWS).head? == some '{'

/-- Source `isContinuationLine`: blank after trimming, leading whitespace, or a
trimmed form starting with a stack-frame / traceback marker. -/
def isContinuationLine (line : List Char) : Bool :=
  let trimmed := trimJS line
  if trimmed.isEmpty then true
  else
    (match line with | c :: _ => jsWS c | [] => false) ||
    (match trimmed with | 'a' :: 't' :: c :: _ => jsWS c | _ => false) ||
    startsWithSeq "Caused by".data trimmed ||
    startsWithSeq "Traceback".data trimmed ||
    (match trimmed with
     | 'F' :: 'i' :: 'l' :: 'e' :: r =>
       (match r with | c :: _ => jsWS c | [] => false) &&
       (r.dropWhile jsWS).head? == some '"'
     | _ => false)

/-- Source `isEntryStart`. -/
def isEntryStart (line : List Char) : Bool :=
  (detectTimestamp line).isSome || (detectSeverity line).isSome || isJsonStart line

/-- Data model: one logical log record (`LogEntry` of src/app/lib/types.ts). -/
structure LogEntry where
  lineStart : Nat
  lineEnd : Nat
  text : List Char
  severity : Option (List Char)
  timestamp : Option (List Char)
deriving DecidableEq

/-- Open-entry accumulator (`currentEntry` of the worker). -/
structure CurrentEntry where
  startLine : Nat
  lines : List (List Char)
deriving DecidableEq

/-- Closure state of the parse: finalized entries, the open entry, and the
running physical line counter. -/
structure ParseState where
  entries : List LogEntry
  currentEntry : Option CurrentEntry
  lineNumber : Nat
deriving DecidableEq

def initState : ParseState := ⟨[], none, 0⟩

/-- JS `Array.prototype.join("\n")`. -/
def joinLF : List (List Char) → List Char
  | [] => []
  | [l] => l
  | l :: ls => l ++ '\n' :: joinLF ls

/-- Source `finalizeEntry`: close the open entry, classifying severity and
timestamp from its first physical line. -/
def finalizeEntry (st : ParseState) : ParseState :=
  match st.currentEntry with
  | none => st
  | some ce =>
    let lineEnd := ce.startLine + ce.lines.length - 1
    let text := joinLF ce.lines
    let entry : LogEntry :=
      ⟨ce.startLine, lineEnd, text,
       detectSeverity (ce.lines.headD []), detectTimestamp (ce.lines.headD [])⟩
    { st with entries := st.entries ++ [entry], currentEntry := none }

/-- Source `handleLine`: line number is incremented first; the first line of
the stream always opens an entry; afterwards an entry-start candidate that is
not a continuation line closes the current entry and opens a new one, and any
other line is appended. -/
def handleLine (st : ParseState) (line : List Char) : ParseState :=
  let ln := st.lineNumber + 1
  match st.currentEntry with
  | none => { st with lineNumber := ln, currentEntry := some ⟨ln, [line]⟩ }
  | some ce =>
    if isEntryStart line && !isContinuationLine line then
      { finalizeEntry { st with lineNumber := ln } with currentEntry := some ⟨ln, [line]⟩ }
    else
      { st with lineNumber := ln, currentEntry := some ⟨ce.startLine, ce.lines ++ [line]⟩ }

/-- Prepend a character to the first piece of a split result. -/
def consHead (c : Char) : List (List Char) → List (List Char)
  | [] => [[c]]
  | p :: ps => (c :: p) :: ps

/-- JS `String.prototype.split(/\r?\n/)`: leftmost matches of `\r?\n` separate
the pieces; a carriage return not followed by a line feed is ordinary text. -/
def jsSplitCRLF : List Char → List (List Char)
  | [] => [[]]
  | [c] => if c = '\n' then [[], []] else [[c]]
  | c :: c2 :: rest =>
    if c = '\n' then [] :: jsSplitCRLF (c2 :: rest)
    else if c = '\r' ∧ c2 = '\n' then [] :: jsSplitCRLF rest
    else consHead c (jsSplitCRLF (c2 :: rest))

/-- JS `String.prototype.split("\n")` (used by the consumer-facing line-count
property on an entry text). -/
def splitLF : List Char → List (List Char)
  | [] => [[]]
  | c :: rest =>
    if c = '\n' then [] :: splitLF rest else consHead c (splitLF rest)

/-- Source `processText`: split the buffered text, feed every complete line to
`handleLine`, and return the trailing incomplete fragment. -/
def processText (st : ParseState) (buf : List Char) : ParseState × List Char :=
  let ps := jsSplitCRLF buf
  (ps.dropLast.foldl handleLine st, ps.getLastD [])

/-- End-of-stream handling of `parseFile`: a non-empty trailing fragment is one
final complete line, then the open entry is flushed. -/
def finishParse (st : ParseState) (leftover : List Char) : ParseState :=
  if leftover.isEmpty then finalizeEntry st else finalizeEntry (handleLine st leftover)

/-- Complete parse of a decoded text delivered as a single buffer. -/
def parseText (s : List Char) : ParseState :=
  let p := processText initState s
  finishParse p.1 p.2

/-! Incremental UTF-8 decoding (`new TextDecoder()` in stream mode).  The
default TextDecoder is non-fatal: it never throws, substituting U+FFFD for
invalid sequences exactly as the WHATWG UTF-8 decode algorithm prescribes.
Bytes of an incomplete trailing sequence are held in the decoder state. -/

structure Utf8State where
  cp : Nat
  needed : Nat
  lower : Nat
  upper : Nat
deriving DecidableEq

def initUtf8 : Utf8State := ⟨0, 0, 0x80, 0xBF⟩

def repChar : Char := Char.ofNat 0xFFFD

/-- WHATWG UTF-8 decoder step for a byte arriving in the initial state. -/
def utf8StepInit (b : Nat) : List Char × Utf8State :=
  if b ≤ 0x7F then ([Char.ofNat b], initUtf8)
  else if 0xC2 ≤ b ∧ b ≤ 0xDF then ([], ⟨b % 32, 1, 0x80, 0xBF⟩)
  else if 0xE0 ≤ b ∧ b ≤ 0xEF then
    ([], ⟨b % 16, 2, (if b = 0xE0 then 0xA0 else 0x80), (if b = 0xED then 0x9F else 0xBF)⟩)
  else if 0xF0 ≤ b ∧ b ≤ 0xF4 then
    ([], ⟨b % 8, 3, (if b = 0xF0 then 0x90 else 0x80), (if b = 0xF4 then 0x8F else 0xBF)⟩)
  else ([repChar], initUtf8)

/-- WHATWG UTF-8 decoder step: a byte outside the expected continuation range
emits U+FFFD and is reprocessed in the initial state. -/
def utf8Step (st : Utf8State) (b : Nat) : List Char × Utf8State :=
  if st.needed = 0 then utf8StepInit b
  else if st.lower ≤ b ∧ b ≤ st.upper then
    let cp2 := st.cp * 64 + b % 64
    if st.needed = 1 then ([Char.ofNat cp2], initUtf8)
    else ([], ⟨cp2, st.needed - 1, 0x80, 0xBF⟩)
  else
    let p := utf8StepInit b
    (repChar :: p.1, p.2)

/-- Decode one chunk with carried decoder state (`decoder.decode(buf, stream)`). -/
def utf8DecodeChunk (st : Utf8State) : List Nat → List Char × Utf8State
  | [] => ([], st)
  | b :: bs =>
    let p := utf8Step st b
    let q := utf8DecodeChunk p.2 bs
    (p.1 ++ q.1, q.2)

/-- Final `decoder.decode()`: flushing with an incomplete sequence pending
yields a single replacement character. -/
def utf8Flush (st : Utf8State) : List Char :=
  if st.needed = 0 then [] else [repChar]

/-! The worker loop of `parseFile`.  The loop reads the file in 256 KiB
slices; each iteration decodes the slice, runs `processText` on the carried
leftover plus the new text, advances `bytesProcessed`, and reports progress
when at least `PROGRESS_INTERVAL_BYTES` have elapsed since the last report or
the file is exhausted.  An `arrayBuffer()` rejection anywhere makes
`parseFile` throw; the `onmessage` handler then posts exactly one ERROR
message.  `durationMs` (wall-clock time) is not modelled.  The `percent`
field, a JS float, is modelled as an exact rational; this does not affect
which messages are sent. -/

def SLICE_SIZE : Nat := 256 * 1024

def PROGRESS_INTERVAL_BYTES : Nat := 1 * 1024 * 1024

/-- Slices `file.slice(b, b + SLICE_SIZE)` taken by the read loop, in order.
The fuel argument (bounded by the byte count) only serves termination; it is
never exhausted since every slice is non-empty. -/
def chunksOfAux : Nat → List Nat → List (List Nat)
  | _, [] => []
  | 0, l => [l]
  | fuel + 1, l => l.take SLICE_SIZE :: chunksOfAux fuel (l.drop SLICE_SIZE)

def chunksOf (l : List Nat) : List (List Nat) := chunksOfAux l.length l

/-- Messages posted by the worker (`ProgressMessage`, `DoneMessage`,
`ErrorMessage`), minus the unmodelled wall-clock duration field. -/
inductive WMsg where
  | progress (bytesProcessed totalBytes : Nat) (percent : Rat) (lines entriesCount : Nat)
  | done (entries : List LogEntry) (bytesProcessed totalBytes lines entriesCount : Nat)
  | error (msg : List Char)
deriving DecidableEq

def isTerminal : WMsg → Bool
  | .progress _ _ _ _ _ => false
  | _ => true

/-- One chunk of the streaming pipeline: decode, then feed to `processText`
with the carried leftover. -/
def feedChunk (a : ParseState × List Char × Utf8State) (c : List Nat) :
    ParseState × List Char × Utf8State :=
  let q := utf8DecodeChunk a.2.2 c
  let p := processText a.1 (a.2.1 ++ q.1)
  (p.1, p.2, q.2)

/-- End of the read loop: flush the decoder, process any final text, treat a
non-empty leftover as one last line, and flush the open entry. -/
def workerFinish (total b : Nat) (st : ParseState) (l : List Char) (ds : Utf8State) : WMsg :=
  let ft := utf8Flush ds
  let p := if ft.isEmpty then (st, l) else processText st (l ++ ft)
  let st2 := finishParse p.1 p.2
  .done st2.entries b total st2.lineNumber st2.entries.length

/-- The read loop of `parseFile`: `ioErr k` gives the outcome of the k-th
`slice.arrayBuffer()` call (`some e` models a rejection with message `e`,
which aborts the parse via the `onmessage` catch handler). -/
def runWorkerAux (total : Nat) (ioErr : Nat → Option (List Char)) :
    List (List Nat) → Nat → Nat → Nat → ParseState → List Char → Utf8State → List WMsg
  | [], _, b, _, st, l, ds => [workerFinish total b st l ds]
  | c :: cs, k, b, lastP, st, l, ds =>
    match ioErr k with
    | some e => [WMsg.error e]
    | none =>
      let q := utf8DecodeChunk ds c
      let p := processText st (l ++ q.1)
      let b2 := b + c.length
      if b2 - lastP ≥ PROGRESS_INTERVAL_BYTES ∨ b2 ≥ total then
        WMsg.progress b2 total (min 1 ((b2 : Rat) / (total : Rat))) p.1.lineNumber p.1.entries.length
          :: runWorkerAux total ioErr cs (k + 1) b2 b2 p.1 p.2 q.2
      else
        runWorkerAux total ioErr cs (k + 1) b2 lastP p.1 p.2 q.2

/-- Full worker run on a file given as its byte list. -/
def runWorker (bytes : List Nat) (ioErr : Nat → Option (List Char)) : List WMsg :=
  runWorkerAux bytes.length ioErr (chunksOf bytes) 0 0 0 initState [] initUtf8

/-- First failing read among the first `n` reads, starting at index `k`. -/
def firstIoFailure (ioErr : Nat → Option (List Char)) : Nat → Nat → Option (List Char)
  | _, 0 => none
  | k, n + 1 =>
    match ioErr k with
    | some e => some e
    | none => firstIoFailure ioErr (k + 1) n

/-- The success payload computed from the whole file in one pass. -/
def workerSuccessMsg (bytes : List Nat) : WMsg :=
  let q := utf8DecodeChunk initUtf8 bytes
  let p := processText initState q.1
  workerFinish bytes.length bytes.length p.1 p.2 q.2

/-- Streaming parse of the bytes delivered as the given chunks (the chunk
layout is a parameter so that delivery granularity can be compared). -/
def parseBytesChunked (chunks : List (List Nat)) : ParseState :=
  let a := chunks.foldl feedChunk (initState, [], initUtf8)
  let ft := utf8Flush a.2.2
  let p := if ft.isEmpty then (a.1, a.2.1) else processText a.1 (a.2.1 ++ ft)
  finishParse p.1 p.2

/-! The calling page (`Home` in ChatPanel.tsx): `handleFile` rejects a file
larger than `MAX_FILE_SIZE` with an error message and otherwise posts the
parse request to the worker; with no worker mounted it does nothing. -/

def MAX_FILE_SIZE : Nat := 30 * 1024 * 1024

inductive FileAction where
  | idle
  | rejectTooLarge
  | sendToWorker
deriving DecidableEq

def handleFile (workerPresent : Bool) (size : Nat) : FileAction :=
  if !workerPresent then .idle
  else if size > MAX_FILE_SIZE then .rejectTooLarge
  else .sendToWorker

/-! Helper lemmas about list splitting and the chunked pipeline. -/

theorem getLastD_cons_ne {α : Type} (a : α) (d : α) (l : List α) (h : l ≠ []) :
    (a :: l).getLastD d = l.getLastD d := by
  cases l with
  | nil => exact absurd rfl h
  | cons b t => simp [List.getLastD]

theorem getLastD_mem {α : Type} (l : List α) (h : l ≠ []) (d : α) : l.getLastD d ∈ l := by
  induction l with
  | nil => exact absurd rfl h
  | cons a t ih =>
    cases t with
    | nil => simp [List.getLastD]
    | cons b t2 =>
      rw [getLastD_cons_ne a d (b :: t2) (by simp)]
      exact List.mem_cons_of_mem a (ih (by simp))

theorem dropLast_cons_ne {α : Type} (a : α) (l : List α) (h : l ≠ []) :
    (a :: l).dropLast = a :: l.dropLast := by
  cases l with
  | nil => exact absurd rfl h
  | cons b t => simp

theorem dropLast_append_ne {α : Type} (l1 l2 : List α) (h : l2 ≠ []) :
    (l1 ++ l2).dropLast = l1 ++ l2.dropLast := by
  induction l1 with
  | nil => simp
  | cons a t ih =>
    have hne : t ++ l2 ≠ [] := by
      intro hc
      exact h (List.append_eq_nil.mp hc).2
    rw [List.cons_append, dropLast_cons_ne a (t ++ l2) hne, ih, List.cons_append]

theorem getLastD_append_ne {α : Type} (l1 l2 : List α) (d : α) (h : l2 ≠ []) :
    (l1 ++ l2).getLastD d = l2.getLastD d := by
  induction l1 with
  | nil => simp
  | cons a t ih =>
    have hne : t ++ l2 ≠ [] := by
      intro hc
      exact h (List.append_eq_nil.mp hc).2
    rw [List.cons_append, getLastD_cons_ne a d (t ++ l2) hne, ih]

/-- Piece-final carriage return test. -/
def endsWithCR (p : List Char) : Bool := p.getLast? == some '\r'

theorem endsWithCR_cons_ne (c : Char) (p : List Char) (h : p ≠ []) :
    endsWithCR (c :: p) = endsWithCR p := by
  cases p with
  | nil => exact absurd rfl h
  | cons b t => simp [endsWithCR, List.getLast?_cons_cons]

/-- Soundness relation of the `\r?\n` split: the pieces, interleaved with
separators each of which is LF or CRLF, reconstruct the input; no piece
contains a line feed; and a piece ending in a carriage return is never
followed by a bare-LF separator (the carriage return of a CRLF pair is
always consumed with its line feed). -/
inductive SplitSound : List (List Char) → List Char → Prop where
  | single (p : List Char) (h : '\n' ∉ p) : SplitSound [p] p
  | stepLF (p : List Char) (ps : List (List Char)) (s : List Char) (h : '\n' ∉ p)
      (hcr : endsWithCR p = false) (hs : SplitSound ps s) :
      SplitSound (p :: ps) (p ++ '\n' :: s)
  | stepCRLF (p : List Char) (ps : List (List Char)) (s : List Char) (h : '\n' ∉ p)
      (hs : SplitSound ps s) : SplitSound (p :: ps) (p ++ '\r' :: '\n' :: s)

theorem splitSound_ne_nil {ps : List (List Char)} {s : List Char} (h : SplitSound ps s) :
    ps ≠ [] := by
  cases h <;> simp

theorem splitSound_noLF {ps : List (List Char)} {s : List Char} (h : SplitSound ps s) :
    ∀ p ∈ ps, '\n' ∉ p := by
  induction h with
  | single p hp => simpa using hp
  | stepLF p ps s hp hcr hs ih =>
    intro q hq
    rcases List.mem_cons.mp hq with h1 | h2
    · exact h1 ▸ hp
    · exact ih q h2
  | stepCRLF p ps s hp hs ih =>
    intro q hq
    rcases List.mem_cons.mp hq with h1 | h2
    · exact h1 ▸ hp
    · exact ih q h2

theorem consHead_sound {ps : List (List Char)} {s : List Char} (h : SplitSound ps s)
    (c : Char) (hc : c ≠ '\n') (hcr : c = '\r' → s.head? ≠ some '\n') :
    SplitSound (consHead c ps) (c :: s) := by
  cases h with
  | single _ hp =>
    exact SplitSound.single (c :: s) (by simp [hp, Ne.symm hc])
  | stepLF p ps s hp hpcr hs =>
    have hmem : '\n' ∉ c :: p := by simp [hp, Ne.symm hc]
    have hend : endsWithCR (c :: p) = false := by
      cases p with
      | nil =>
        have : c ≠ '\r' := by
          intro hcc
          exact hcr hcc (by simp)
        simp [endsWithCR, this]
      | cons b t => rw [endsWithCR_cons_ne c (b :: t) (by simp)]; exact hpcr
    exact SplitSound.stepLF (c :: p) ps s hmem hend hs
  | stepCRLF p ps s hp hs =>
    have hmem : '\n' ∉ c :: p := by simp [hp, Ne.symm hc]
    exact SplitSound.stepCRLF (c :: p) ps s hmem hs

theorem jsSplitCRLF_sound : (s : List Char) → SplitSound (jsSplitCRLF s) s
  | [] => SplitSound.single [] (by simp)
  | [c] => by
    by_cases hc : c = '\n'
    · subst hc
      rw [show jsSplitCRLF ['\n'] = [[], []] from by simp [jsSplitCRLF]]
      exact SplitSound.stepLF [] [[]] [] (by simp) rfl (SplitSound.single [] (by simp))
    · rw [show jsSplitCRLF [c] = [[c]] from by simp [jsSplitCRLF, hc]]
      exact SplitSound.single [c] (by simp [Ne.symm hc])
  | c :: c2 :: rest => by
    by_cases hc : c = '\n'
    · subst hc
      rw [show jsSplitCRLF ('\n' :: c2 :: rest) = [] :: jsSplitCRLF (c2 :: rest) from by
        simp [jsSplitCRLF]]
      exact SplitSound.stepLF [] _ _ (by simp) rfl (jsSplitCRLF_sound (c2 :: rest))
    · by_cases hcr : c = '\r' ∧ c2 = '\n'
      · obtain ⟨h1, h2⟩ := hcr
        subst h1; subst h2
        rw [show jsSplitCRLF ('\r' :: '\n' :: rest) = [] :: jsSplitCRLF rest from by
          simp [jsSplitCRLF]]
        exact SplitSound.stepCRLF [] _ _ (by simp) (jsSplitCRLF_sound rest)
      · rw [show jsSplitCRLF (c :: c2 :: rest) = consHead c (jsSplitCRLF (c2 :: rest)) from by
          simp [jsSplitCRLF, hc, hcr]]
        refine consHead_sound (jsSplitCRLF_sound (c2 :: rest)) c hc ?_
        intro hceq hhd
        exact hcr ⟨hceq, by simpa using hhd⟩
termination_by s => s.length
decreasing_by all_goals simp [List.length_cons] <;> omega

theorem jsSplitCRLF_cons_other (c d : Char) (rest : List Char) (hc : c ≠ '\n')
    (h2 : ¬(c = '\r' ∧ d = '\n')) :
    jsSplitCRLF (c :: d :: rest) = consHead c (jsSplitCRLF (d :: rest)) := by
  simp only [jsSplitCRLF]
  rw [if_neg hc, if_neg h2]

theorem jsSplitCRLF_prepend_LF : (p : List Char) → '\n' ∉ p → endsWithCR p = false →
    ∀ t : List Char, jsSplitCRLF (p ++ '\n' :: t) = p :: jsSplitCRLF t
  | [], _, _, t => by
    cases t with
    | nil => simp [jsSplitCRLF]
    | cons d t2 => simp [jsSplitCRLF]
  | [c], hp, hcr, t => by
    have hc : c ≠ '\n' := by simp at hp; exact Ne.symm hp
    have hr : c ≠ '\r' := by
      intro hceq
      rw [hceq] at hcr
      simp [endsWithCR] at hcr
    have hbase : jsSplitCRLF ([] ++ '\n' :: t) = [] :: jsSplitCRLF t :=
      jsSplitCRLF_prepend_LF [] (by simp) rfl t
    simp only [List.nil_append] at hbase
    rw [show ([c] ++ '\n' :: t) = c :: '\n' :: t from rfl]
    rw [show jsSplitCRLF (c :: '\n' :: t) = consHead c (jsSplitCRLF ('\n' :: t)) from by
      simp [jsSplitCRLF, hc, hr]]
    rw [hbase]
    simp [consHead]
  | c :: d :: p2, hp, hcr, t => by
    have hc : c ≠ '\n' := fun h => hp (by simp [h])
    have hd : d ≠ '\n' := fun h => hp (by simp [h])
    have hp2 : '\n' ∉ d :: p2 := fun h => hp (List.mem_cons_of_mem c h)
    have hcr2 : endsWithCR (d :: p2) = false := by
      rw [endsWithCR_cons_ne c (d :: p2) (by simp)] at hcr
      exact hcr
    have ih := jsSplitCRLF_prepend_LF (d :: p2) hp2 hcr2 t
    rw [show ((c :: d :: p2) ++ '\n' :: t) = c :: d :: (p2 ++ '\n' :: t) from rfl]
    rw [jsSplitCRLF_cons_other c d (p2 ++ '\n' :: t) hc (fun h => hd h.2)]
    rw [show (d :: (p2 ++ '\n' :: t)) = ((d :: p2) ++ '\n' :: t) from rfl, ih]
    simp [consHead]

theorem jsSplitCRLF_prepend_CRLF : (p : List Char) → '\n' ∉ p →
    ∀ t : List Char, jsSplitCRLF (p ++ '\r' :: '\n' :: t) = p :: jsSplitCRLF t
  | [], _, t => by simp [jsSplitCRLF]
  | [c], hp, t => by
    have hc : c ≠ '\n' := by simp at hp; exact Ne.symm hp
    rw [show ([c] ++ '\r' :: '\n' :: t) = c :: '\r' :: ('\n' :: t) from rfl]
    rw [show jsSplitCRLF (c :: '\r' :: ('\n' :: t)) =
        consHead c (jsSplitCRLF ('\r' :: '\n' :: t)) from by
      simp [jsSplitCRLF, hc]]
    rw [show jsSplitCRLF ('\r' :: '\n' :: t) = [] :: jsSplitCRLF t from by simp [jsSplitCRLF]]
    simp [consHead]
  | c :: d :: p2, hp, t => by
    have hc : c ≠ '\n' := fun h => hp (by simp [h])
    have hd : d ≠ '\n' := fun h => hp (by simp [h])
    have hp2 : '\n' ∉ d :: p2 := fun h => hp (List.mem_cons_of_mem c h)
    have ih := jsSplitCRLF_prepend_CRLF (d :: p2) hp2 t
    rw [show ((c :: d :: p2) ++ '\r' :: '\n' :: t) = c :: d :: (p2 ++ '\r' :: '\n' :: t) from rfl]
    rw [jsSplitCRLF_cons_other c d (p2 ++ '\r' :: '\n' :: t) hc (fun h => hd h.2)]
    rw [show (d :: (p2 ++ '\r' :: '\n' :: t)) = ((d :: p2) ++ '\r' :: '\n' :: t) from rfl, ih]
    simp [consHead]

theorem jsSplitCRLF_noLF : (s : List Char) → '\n' ∉ s → jsSplitCRLF s = [s]
  | [], _ => rfl
  | [c], hp => by
    have hc : c ≠ '\n' := by simp at hp; exact Ne.symm hp
    simp [jsSplitCRLF, hc]
  | c :: d :: rest, hp => by
    have hc : c ≠ '\n' := fun h => hp (by simp [h])
    have hd : d ≠ '\n' := fun h => hp (by simp [h])
    have hrest : '\n' ∉ d :: rest := fun h => hp (List.mem_cons_of_mem c h)
    rw [jsSplitCRLF_cons_other c d rest hc (fun h => hd h.2)]
    rw [jsSplitCRLF_noLF (d :: rest) hrest]
    simp [consHead]

theorem splitSound_det {ps : List (List Char)} {s : List Char} (h : SplitSound ps s) :
    jsSplitCRLF s = ps := by
  induction h with
  | single p hp => exact jsSplitCRLF_noLF p hp
  | stepLF p ps s hp hcr hs ih => rw [jsSplitCRLF_prepend_LF p hp hcr s, ih]
  | stepCRLF p ps s hp hs ih => rw [jsSplitCRLF_prepend_CRLF p hp s, ih]

theorem splitSound_pieces_append {ps : List (List Char)} {s : List Char}
    (h : SplitSound ps s) (y : List Char) :
    jsSplitCRLF (s ++ y) = ps.dropLast ++ jsSplitCRLF (ps.getLastD [] ++ y) := by
  induction h with
  | single p hp => simp [List.getLastD]
  | stepLF p ps s hp hcr hs ih =>
    have hne : ps ≠ [] := splitSound_ne_nil hs
    rw [show ((p ++ '\n' :: s) ++ y) = p ++ '\n' :: (s ++ y) from by simp]
    rw [jsSplitCRLF_prepend_LF p hp hcr (s ++ y), ih]
    rw [dropLast_cons_ne p ps hne, getLastD_cons_ne p [] ps hne]
    simp
  | stepCRLF p ps s hp hs ih =>
    have hne : ps ≠ [] := splitSound_ne_nil hs
    rw [show ((p ++ '\r' :: '\n' :: s) ++ y) = p ++ '\r' :: '\n' :: (s ++ y) from by simp]
    rw [jsSplitCRLF_prepend_CRLF p hp (s ++ y), ih]
    rw [dropLast_cons_ne p ps hne, getLastD_cons_ne p [] ps hne]
    simp

theorem jsSplitCRLF_ne_nil (s : List Char) : jsSplitCRLF s ≠ [] :=
  splitSound_ne_nil (jsSplitCRLF_sound s)

theorem jsSplitCRLF_mem_noLF (s : List Char) : ∀ p ∈ jsSplitCRLF s, '\n' ∉ p :=
  splitSound_noLF (jsSplitCRLF_sound s)

theorem jsSplitCRLF_last_noLF (s : List Char) : '\n' ∉ (jsSplitCRLF s).getLastD [] :=
  jsSplitCRLF_mem_noLF s _ (getLastD_mem _ (jsSplitCRLF_ne_nil s) [])

/-- Feeding a buffer in two stages, carrying the trailing fragment, equals
feeding it at once. -/
theorem processText_append (st : ParseState) (x y : List Char) :
    processText st (x ++ y) = processText (processText st x).1 ((processText st x).2 ++ y) := by
  have hx := jsSplitCRLF_sound x
  have hB := jsSplitCRLF_ne_nil ((jsSplitCRLF x).getLastD [] ++ y)
  show ((jsSplitCRLF (x ++ y)).dropLast.foldl handleLine st, (jsSplitCRLF (x ++ y)).getLastD [])
      = _
  rw [splitSound_pieces_append hx y]
  rw [dropLast_append_ne _ _ hB, getLastD_append_ne _ _ _ hB, List.foldl_append]
  rfl

/-- Feeding a fragment with no line terminator leaves the state unchanged and
carries the fragment over. -/
theorem processText_noLF (st : ParseState) (l : List Char) (h : '\n' ∉ l) :
    processText st l = (st, l) := by
  show ((jsSplitCRLF l).dropLast.foldl handleLine st, (jsSplitCRLF l).getLastD []) = _
  rw [jsSplitCRLF_noLF l h]
  rfl

theorem utf8DecodeChunk_append (st : Utf8State) (a b : List Nat) :
    utf8DecodeChunk st (a ++ b) =
      ((utf8DecodeChunk st a).1 ++ (utf8DecodeChunk (utf8DecodeChunk st a).2 b).1,
       (utf8DecodeChunk (utf8DecodeChunk st a).2 b).2) := by
  induction a generalizing st with
  | nil => simp [utf8DecodeChunk]
  | cons x xs ih => simp [utf8DecodeChunk, ih]

/-- The processing fold over any chunk layout equals single-shot processing of
the concatenated bytes (decoder state, parse state and leftover included). -/
theorem foldl_feedChunk (cs : List (List Nat)) :
    ∀ (st : ParseState) (l : List Char) (ds : Utf8State), '\n' ∉ l →
      cs.foldl feedChunk (st, l, ds) =
        ((processText st (l ++ (utf8DecodeChunk ds cs.flatten).1)).1,
         (processText st (l ++ (utf8DecodeChunk ds cs.flatten).1)).2,
         (utf8DecodeChunk ds cs.flatten).2) := by
  induction cs with
  | nil =>
    intro st l ds hl
    simp [utf8DecodeChunk, processText_noLF st l hl]
  | cons c cs ih =>
    intro st l ds hl
    have hstep : feedChunk (st, l, ds) c =
        ((processText st (l ++ (utf8DecodeChunk ds c).1)).1,
         (processText st (l ++ (utf8DecodeChunk ds c).1)).2,
         (utf8DecodeChunk ds c).2) := rfl
    have hl2 : '\n' ∉ (processText st (l ++ (utf8DecodeChunk ds c).1)).2 := by
      show '\n' ∉ (jsSplitCRLF (l ++ (utf8DecodeChunk ds c).1)).getLastD []
      exact jsSplitCRLF_last_noLF _
    rw [List.foldl_cons, hstep, ih _ _ _ hl2]
    rw [show (c :: cs).flatten = c ++ cs.flatten from rfl]
    rw [utf8DecodeChunk_append ds c cs.flatten]
    rw [show l ++ ((utf8DecodeChunk ds c).1 ++
        (utf8DecodeChunk (utf8DecodeChunk ds c).2 cs.flatten).1) =
        (l ++ (utf8DecodeChunk ds c).1) ++
        (utf8DecodeChunk (utf8DecodeChunk ds c).2 cs.flatten).1 from by simp]
    rw [processText_append st (l ++ (utf8DecodeChunk ds c).1)
        (utf8DecodeChunk (utf8DecodeChunk ds c).2 cs.flatten).1]

theorem chunksOfAux_flatten : (fuel : Nat) → (l : List Nat) → (chunksOfAux fuel l).flatten = l
  | _, [] => by cases ‹Nat› <;> simp [chunksOfAux]
  | 0, x :: xs => by simp [chunksOfAux]
  | fuel + 1, x :: xs => by
    rw [show chunksOfAux (fuel + 1) (x :: xs) =
        (x :: xs).take SLICE_SIZE :: chunksOfAux fuel ((x :: xs).drop SLICE_SIZE) from rfl]
    rw [show ((x :: xs).take SLICE_SIZE :: chunksOfAux fuel ((x :: xs).drop SLICE_SIZE)).flatten =
        (x :: xs).take SLICE_SIZE ++ (chunksOfAux fuel ((x :: xs).drop SLICE_SIZE)).flatten from
      rfl]
    rw [chunksOfAux_flatten fuel ((x :: xs).drop SLICE_SIZE), List.take_append_drop]

theorem chunksOf_flatten (l : List Nat) : (chunksOf l).flatten = l :=
  chunksOfAux_flatten l.length l

/-! Lemmas about the worker trace. -/

theorem runWorkerAux_ne_nil (total : Nat) (ioErr : Nat → Option (List Char)) :
    ∀ (cs : List (List Nat)) (k b lastP : Nat) (st : ParseState) (l : List Char)
      (ds : Utf8State), runWorkerAux total ioErr cs k b lastP st l ds ≠ [] := by
  intro cs
  induction cs with
  | nil => intro k b lastP st l ds; simp [runWorkerAux]
  | cons c cs ih =>
    intro k b lastP st l ds
    cases h : ioErr k with
    | some e => simp [runWorkerAux, h]
    | none =>
      simp only [runWorkerAux, h]
      split
      · simp
      · exact ih _ _ _ _ _ _

theorem runWorkerAux_countP (total : Nat) (ioErr : Nat → Option (List Char)) :
    ∀ (cs : List (List Nat)) (k b lastP : Nat) (st : ParseState) (l : List Char)
      (ds : Utf8State),
      (runWorkerAux total ioErr cs k b lastP st l ds).countP isTerminal = 1 := by
  intro cs
  induction cs with
  | nil =>
    intro k b lastP st l ds
    simp [runWorkerAux, workerFinish, isTerminal, List.countP_cons]
  | cons c cs ih =>
    intro k b lastP st l ds
    cases h : ioErr k with
    | some e => simp [runWorkerAux, h, isTerminal, List.countP_cons]
    | none =>
      simp only [runWorkerAux, h]
      split
      · rw [List.countP_cons]
        simp [isTerminal, ih]
      · exact ih _ _ _ _ _ _

/-- The terminal message the loop must produce given the chunks still ahead. -/
def expectedTerminal (total : Nat) (ioErr : Nat → Option (List Char))
    (cs : List (List Nat)) (k b : Nat) (st : ParseState) (l : List Char)
    (ds : Utf8State) : WMsg :=
  match firstIoFailure ioErr k cs.length with
  | some e => WMsg.error e
  | none =>
    workerFinish total (b + cs.flatten.length) (cs.foldl feedChunk (st, l, ds)).1
      (cs.foldl feedChunk (st, l, ds)).2.1 (cs.foldl feedChunk (st, l, ds)).2.2

theorem runWorkerAux_last (total : Nat) (ioErr : Nat → Option (List Char)) :
    ∀ (cs : List (List Nat)) (k b lastP : Nat) (st : ParseState) (l : List Char)
      (ds : Utf8State),
      (runWorkerAux total ioErr cs k b lastP st l ds).getLastD (.error []) =
        expectedTerminal total ioErr cs k b st l ds := by
  intro cs
  induction cs with
  | nil =>
    intro k b lastP st l ds
    simp [runWorkerAux, expectedTerminal, firstIoFailure, List.getLastD]
  | cons c cs ih =>
    intro k b lastP st l ds
    cases h : ioErr k with
    | some e =>
      simp [runWorkerAux, h, List.getLastD, expectedTerminal, firstIoFailure]
    | none =>
      have hexp : expectedTerminal total ioErr (c :: cs) k b st l ds =
          expectedTerminal total ioErr cs (k + 1) (b + c.length)
            (processText st (l ++ (utf8DecodeChunk ds c).1)).1
            (processText st (l ++ (utf8DecodeChunk ds c).1)).2
            (utf8DecodeChunk ds c).2 := by
        simp only [expectedTerminal, List.length_cons, firstIoFailure, h]
        have harith : b + (c :: cs).flatten.length = b + c.length + cs.flatten.length := by
          simp [List.flatten_cons]
          omega
        rw [harith]
        rfl
      rw [hexp]
      simp only [runWorkerAux, h]
      split
      · rw [getLastD_cons_ne _ _ _ (runWorkerAux_ne_nil total ioErr cs _ _ _ _ _ _)]
        exact ih _ _ _ _ _ _
      · exact ih _ _ _ _ _ _

theorem runWorkerAux_progress_fields (total : Nat) (ioErr : Nat → Option (List Char)) :
    ∀ (cs : List (List Nat)) (k b lastP : Nat) (st : ParseState) (l : List Char)
      (ds : Utf8State), b + cs.flatten.length ≤ total →
      ∀ (bp tb : Nat) (pc : Rat) (ln ec : Nat),
        WMsg.progress bp tb pc ln ec ∈ runWorkerAux total ioErr cs k b lastP st l ds →
        tb = total ∧ bp ≤ total ∧ pc = min 1 ((bp : Rat) / (total : Rat)) ∧
          0 ≤ pc ∧ pc ≤ 1 := by
  intro cs
  induction cs with
  | nil =>
    intro k b lastP st l ds hb bp tb pc ln ec hmem
    simp [runWorkerAux, workerFinish] at hmem
  | cons c cs ih =>
    intro k b lastP st l ds hb bp tb pc ln ec hmem
    have hb2 : b + c.length + cs.flatten.length ≤ total := by
      simp [List.flatten_cons] at hb ⊢
      omega
    have hbp : b + c.length ≤ total := by omega
    cases h : ioErr k with
    | some e => simp [runWorkerAux, h] at hmem
    | none =>
      simp only [runWorkerAux, h] at hmem
      split at hmem
      · rcases List.mem_cons.mp hmem with heq | hrec
        · have hfields := WMsg.progress.inj heq
          obtain ⟨h1, h2, h3, h4, h5⟩ := hfields
          refine ⟨h2, by omega, by rw [h3, h1], ?_, ?_⟩
          · rw [h3]
            have h0 : (0 : Rat) ≤ ((b + c.length : Nat) : Rat) / ((total : Nat) : Rat) := by
              apply div_nonneg <;> positivity
            exact le_min (by norm_num) h0
          · rw [h3]
            exact min_le_left _ _
        · exact ih (k + 1) (b + c.length) (b + c.length) _ _ _ hb2 bp tb pc ln ec hrec
      · exact ih (k + 1) (b + c.length) lastP _ _ _ hb2 bp tb pc ln ec hmem

/-- C5: every worker run posts exactly one terminal outcome, it is the last
message posted (everything before it is a progress notification), and it is
either the single success payload computed from the whole input or the error
payload of the first failing read — never both, and never a partial entry
list.  With the default non-fatal text decoder a decoding failure cannot
occur (undecodable bytes are replaced by U+FFFD), so the aborting failures
are the I/O failures modelled by `ioErr`. -/
theorem spec_C5 : ∀ (bytes : List Nat) (ioErr : Nat → Option (List Char)),
    (runWorker bytes ioErr).countP isTerminal = 1 ∧
    isTerminal ((runWorker bytes ioErr).getLastD (.error [])) = true ∧
    (runWorker bytes ioErr).getLastD (.error []) =
      (match firstIoFailure ioErr 0 (chunksOf bytes).length with
       | some e => WMsg.error e
       | none => workerSuccessMsg bytes) := by
  intro bytes ioErr
  have hcount := runWorkerAux_countP bytes.length ioErr (chunksOf bytes) 0 0 0 initState []
    initUtf8
  have hlast := runWorkerAux_last bytes.length ioErr (chunksOf bytes) 0 0 0 initState []
    initUtf8
  have hterm : expectedTerminal bytes.length ioErr (chunksOf bytes) 0 0 initState [] initUtf8 =
      (match firstIoFailure ioErr 0 (chunksOf bytes).length with
       | some e => WMsg.error e
       | none => workerSuccessMsg bytes) := by
    unfold expectedTerminal
    cases hf : firstIoFailure ioErr 0 (chunksOf bytes).length with
    | some e => rfl
    | none =>
      rw [foldl_feedChunk (chunksOf bytes) initState [] initUtf8 (by simp)]
      rw [chunksOf_flatten]
      simp [workerSuccessMsg]
  refine ⟨hcount, ?_, ?_⟩
  · show isTerminal ((runWorkerAux bytes.length ioErr (chunksOf bytes) 0 0 0 initState []
      initUtf8).getLastD (.error [])) = true
    rw [hlast, hterm]
    rcases hf : firstIoFailure ioErr 0 (chunksOf bytes).length with _ | e <;>
      simp [hf, workerSuccessMsg, workerFinish, isTerminal]
  · show (runWorkerAux bytes.length ioErr (chunksOf bytes) 0 0 0 initState []
      initUtf8).getLastD (.error []) = _
    rw [hlast, hterm]

/-- C6: delivering the bytes of a file in any chunk layout — including
layouts that split a multi-byte UTF-8 sequence or a CRLF terminator at a
chunk boundary — produces exactly the same final parse state (entry list and
line count) as delivering the whole file in one chunk: the decoder carries
split multi-byte sequences in its state and the line splitter carries the
trailing fragment (in which a chunk-final carriage return stays) to the next
chunk. -/
theorem spec_C6 : ∀ chunks : List (List Nat),
    parseBytesChunked chunks = parseBytesChunked [chunks.flatten] := by
  intro chunks
  simp only [parseBytesChunked]
  rw [foldl_feedChunk chunks initState [] initUtf8 (by simp)]
  rw [show List.foldl feedChunk (initState, ([] : List Char), initUtf8) [chunks.flatten] =
      feedChunk (initState, [], initUtf8) chunks.flatten from rfl]
  rfl

/-- C7: after each chunk the worker posts a progress message exactly when at
least `PROGRESS_INTERVAL_BYTES` (1 MiB) have accumulated since the last
report or the file is exhausted, and the message carries the cumulative byte
count, the total size, the fraction `min 1 (bytes/total)` which lies in
`[0, 1]`, the cumulative line count, and the count of finalized entries only
(the open entry is not counted: in the concrete run below the first line is
already part of an open entry while the progress message still reports zero
entries; the final DONE message then reports that entry). -/
theorem spec_C7 :
    (∀ (total : Nat) (ioErr : Nat → Option (List Char)) (c : List Nat) (cs : List (List Nat))
        (k b lastP : Nat) (st : ParseState) (l : List Char) (ds : Utf8State),
      ioErr k = none →
      runWorkerAux total ioErr (c :: cs) k b lastP st l ds =
        (if b + c.length - lastP ≥ PROGRESS_INTERVAL_BYTES ∨ b + c.length ≥ total then
          WMsg.progress (b + c.length) total
              (min 1 (((b + c.length : Nat) : Rat) / ((total : Nat) : Rat)))
              (processText st (l ++ (utf8DecodeChunk ds c).1)).1.lineNumber
              (processText st (l ++ (utf8DecodeChunk ds c).1)).1.entries.length ::
            runWorkerAux total ioErr cs (k + 1) (b + c.length) (b + c.length)
              (processText st (l ++ (utf8DecodeChunk ds c).1)).1
              (processText st (l ++ (utf8DecodeChunk ds c).1)).2
              (utf8DecodeChunk ds c).2
        else
          runWorkerAux total ioErr cs (k + 1) (b + c.length) lastP
            (processText st (l ++ (utf8DecodeChunk ds c).1)).1
            (processText st (l ++ (utf8DecodeChunk ds c).1)).2
            (utf8DecodeChunk ds c).2)) ∧
    (∀ (bytes : List Nat) (ioErr : Nat → Option (List Char)) (bp tb : Nat) (pc : Rat)
        (ln ec : Nat),
      WMsg.progress bp tb pc ln ec ∈ runWorker bytes ioErr →
      tb = bytes.length ∧ bp ≤ bytes.length ∧
        pc = min 1 ((bp : Rat) / ((bytes.length : Nat) : Rat)) ∧ 0 ≤ pc ∧ pc ≤ 1) ∧
    runWorker [97, 10, 98] (fun _ => none) =
      [WMsg.progress 3 3 (min 1 (((3 : Nat) : Rat) / ((3 : Nat) : Rat))) 1 0,
       WMsg.done [⟨1, 2, ['a', '\n', 'b'], none, none⟩] 3 3 2 1] := by
  refine ⟨?_, ?_, rfl⟩
  · intro total ioErr c cs k b lastP st l ds h
    simp only [runWorkerAux, h]
  · intro bytes ioErr bp tb pc ln ec hmem
    exact runWorkerAux_progress_fields bytes.length ioErr (chunksOf bytes) 0 0 0 initState []
      initUtf8 (by rw [chunksOf_flatten]; omega) bp tb pc ln ec hmem

theorem spec_C7_witness :
    runWorkerAux 3 (fun _ => none) [[97, 10, 98]] 0 0 0 initState [] initUtf8 =
      [WMsg.progress 3 3 (min 1 (((3 : Nat) : Rat) / ((3 : Nat) : Rat))) 1 0,
       WMsg.done [⟨1, 2, ['a', '\n', 'b'], none, none⟩] 3 3 2 1] ∧
    ((3 : Nat) = 3 ∧ (3 : Nat) ≤ 3 ∧
      min 1 (((3 : Nat) : Rat) / ((3 : Nat) : Rat)) =
        min 1 (((3 : Nat) : Rat) / ((3 : Nat) : Rat)) ∧
      0 ≤ min 1 (((3 : Nat) : Rat) / ((3 : Nat) : Rat)) ∧
      min 1 (((3 : Nat) : Rat) / ((3 : Nat) : Rat)) ≤ 1) :=
  ⟨spec_C7.1 3 (fun _ => none) [97, 10, 98] [] 0 0 0 initState [] initUtf8 rfl,
   spec_C7.2.1 [97, 10, 98] (fun _ => none) 3 3
     (min 1 (((3 : Nat) : Rat) / ((3 : Nat) : Rat))) 1 0
     (by rw [spec_C7.2.2]; exact List.mem_cons_self _ _)⟩

/-- C8: parsing an empty input completes successfully at once: the read loop
never runs, the worker posts exactly one DONE message with zero entries, zero
lines and zero bytes processed, and no error outcome. -/
theorem spec_C8 : ∀ ioErr : Nat → Option (List Char),
    runWorker [] ioErr = [WMsg.done [] 0 0 0 0] := by
  intro ioErr
  rfl

/-! Partition invariant of the produced entries (claim C1). -/

/-- Checks that a list of entries tiles the line range starting at `n`:
consecutive entries abut exactly, every entry has `lineStart ≤ lineEnd`, and
every entry text splits on a line feed into `lineEnd - lineStart + 1` lines;
returns the line number following the last entry. -/
def chainCheck : Nat → List LogEntry → Option Nat
  | n, [] => some n
  | n, e :: es =>
    if e.lineStart = n ∧ e.lineStart ≤ e.lineEnd ∧
        (splitLF e.text).length = e.lineEnd - e.lineStart + 1
    then chainCheck (e.lineEnd + 1) es
    else none

theorem splitLF_noLF : (s : List Char) → '\n' ∉ s → splitLF s = [s]
  | [], _ => rfl
  | c :: rest, hp => by
    have hc : c ≠ '\n' := fun h => hp (by simp [h])
    have hrest : '\n' ∉ rest := fun h => hp (List.mem_cons_of_mem c h)
    simp only [splitLF]
    rw [if_neg hc, splitLF_noLF rest hrest]
    rfl

theorem splitLF_prepend : (p : List Char) → '\n' ∉ p →
    ∀ t : List Char, splitLF (p ++ '\n' :: t) = p :: splitLF t
  | [], _, t => by simp [splitLF]
  | c :: p2, hp, t => by
    have hc : c ≠ '\n' := fun h => hp (by simp [h])
    have hp2 : '\n' ∉ p2 := fun h => hp (List.mem_cons_of_mem c h)
    rw [List.cons_append]
    simp only [splitLF]
    rw [if_neg hc, splitLF_prepend p2 hp2 t]
    rfl

theorem splitLF_joinLF : (ls : List (List Char)) → ls ≠ [] → (∀ l ∈ ls, '\n' ∉ l) →
    splitLF (joinLF ls) = ls
  | [], h, _ => absurd rfl h
  | [l], _, hno => by
    rw [show joinLF [l] = l from rfl]
    exact splitLF_noLF l (hno l (by simp))
  | l :: l2 :: ls, _, hno => by
    rw [show joinLF (l :: l2 :: ls) = l ++ '\n' :: joinLF (l2 :: ls) from rfl]
    rw [splitLF_prepend l (hno l (by simp)) (joinLF (l2 :: ls))]
    rw [splitLF_joinLF (l2 :: ls) (by simp) (fun x hx => hno x (List.mem_cons_of_mem l hx))]

theorem chainCheck_append_some (es : List LogEntry) :
    ∀ (n m : Nat) (e : LogEntry), chainCheck n es = some m →
      chainCheck n (es ++ [e]) =
        if e.lineStart = m ∧ e.lineStart ≤ e.lineEnd ∧
            (splitLF e.text).length = e.lineEnd - e.lineStart + 1
        then some (e.lineEnd + 1) else none := by
  induction es with
  | nil =>
    intro n m e h
    have hm : n = m := Option.some.inj h
    subst hm
    simp [chainCheck]
  | cons f es ih =>
    intro n m e h
    rw [List.cons_append]
    simp only [chainCheck] at h ⊢
    by_cases hf : f.lineStart = n ∧ f.lineStart ≤ f.lineEnd ∧
        (splitLF f.text).length = f.lineEnd - f.lineStart + 1
    · rw [if_pos hf] at h
      rw [if_pos hf, ih _ _ _ h]
    · rw [if_neg hf] at h
      exact absurd h (by simp)

/-- State invariant of the grouping loop: the finalized entries tile the
lines before the open entry, the open entry (when present) is non-empty,
free of line feeds, starts right after the finalized entries and extends to
the current line; with no open entry the finalized entries reach exactly the
current line. -/
def StInv (st : ParseState) : Prop :=
  match st.currentEntry with
  | none => chainCheck 1 st.entries = some (st.lineNumber + 1)
  | some ce =>
    chainCheck 1 st.entries = some ce.startLine ∧ ce.lines ≠ [] ∧
      (∀ l ∈ ce.lines, '\n' ∉ l) ∧ ce.startLine + ce.lines.length = st.lineNumber + 1

theorem StInv_init : StInv initState := by
  simp [StInv, initState, chainCheck]

theorem finalize_some_entries (es : List LogEntry) (ce : CurrentEntry) (n : Nat)
    (hchain : chainCheck 1 es = some ce.startLine) (hne : ce.lines ≠ [])
    (hnoLF : ∀ l ∈ ce.lines, '\n' ∉ l) :
    chainCheck 1 (finalizeEntry ⟨es, some ce, n⟩).entries =
      some (ce.startLine + ce.lines.length) := by
  have hpos : 1 ≤ ce.lines.length := by
    cases hl : ce.lines with
    | nil => exact absurd hl hne
    | cons a t => simp
  have hsplit : (splitLF (joinLF ce.lines)).length = ce.lines.length := by
    rw [splitLF_joinLF ce.lines hne hnoLF]
  show chainCheck 1 (es ++ [⟨ce.startLine, ce.startLine + ce.lines.length - 1,
    joinLF ce.lines, detectSeverity (ce.lines.headD []),
    detectTimestamp (ce.lines.headD [])⟩]) = some (ce.startLine + ce.lines.length)
  rw [chainCheck_append_some es 1 ce.startLine _ hchain]
  have hc1 : ce.startLine ≤ ce.startLine + ce.lines.length - 1 := by omega
  have hc2 : (splitLF (joinLF ce.lines)).length =
      (ce.startLine + ce.lines.length - 1) - ce.startLine + 1 := by
    rw [hsplit]; omega
  rw [if_pos ⟨rfl, hc1, hc2⟩]
  exact congrArg some
    (show ce.startLine + ce.lines.length - 1 + 1 = ce.startLine + ce.lines.length by omega)

theorem finalize_inv (st : ParseState) (h : StInv st) :
    chainCheck 1 (finalizeEntry st).entries = some (st.lineNumber + 1) ∧
      (finalizeEntry st).lineNumber = st.lineNumber := by
  obtain ⟨es, oce, n⟩ := st
  cases oce with
  | none =>
    simp only [StInv] at h
    exact ⟨h, rfl⟩
  | some ce =>
    simp only [StInv] at h
    obtain ⟨hchain, hne, hnoLF, hlen⟩ := h
    refine ⟨?_, rfl⟩
    rw [finalize_some_entries es ce n hchain hne hnoLF]
    exact congrArg some hlen

theorem handleLine_inv (st : ParseState) (line : List Char) (hl : '\n' ∉ line)
    (h : StInv st) : StInv (handleLine st line) := by
  obtain ⟨es, oce, n⟩ := st
  cases oce with
  | none =>
    simp only [StInv] at h
    simp only [handleLine, StInv]
    exact ⟨h, by simp, by simp [hl], rfl⟩
  | some ce =>
    simp only [StInv] at h
    obtain ⟨hchain, hne, hnoLF, hlen⟩ := h
    by_cases hcond : (isEntryStart line && !isContinuationLine line) = true
    · simp only [handleLine, hcond, if_true, StInv]
      refine ⟨?_, by simp, by simp [hl], ?_⟩
      · show chainCheck 1 (finalizeEntry ⟨es, some ce, n + 1⟩).entries = some (n + 1)
        rw [finalize_some_entries es ce (n + 1) hchain hne hnoLF]
        exact congrArg some hlen
      · show n + 1 + 1 = (finalizeEntry ⟨es, some ce, n + 1⟩).lineNumber + 1
        rfl
    · have hcond2 : (isEntryStart line && !isContinuationLine line) = false := by
        revert hcond
        cases isEntryStart line && !isContinuationLine line <;> simp
      simp only [handleLine, hcond2, Bool.false_eq_true, if_false, StInv]
      refine ⟨hchain, by simp, ?_, ?_⟩
      · intro x hx
        rcases List.mem_append.mp hx with h1 | h2
        · exact hnoLF x h1
        · simp at h2
          exact h2 ▸ hl
      · show ce.startLine + (ce.lines ++ [line]).length = n + 1 + 1
        rw [List.length_append]
        simp
        omega

theorem foldl_handleLine_inv (ls : List (List Char)) :
    ∀ st : ParseState, (∀ l ∈ ls, '\n' ∉ l) → StInv st →
      StInv (ls.foldl handleLine st) := by
  induction ls with
  | nil => intro st _ h; exact h
  | cons a ls ih =>
    intro st hno h
    rw [List.foldl_cons]
    exact ih _ (fun x hx => hno x (List.mem_cons_of_mem a hx))
      (handleLine_inv st a (hno a (by simp)) h)

theorem mem_of_mem_dropLast {α : Type} (l : List α) (x : α) (h : x ∈ l.dropLast) : x ∈ l := by
  induction l with
  | nil => simp at h
  | cons a t ih =>
    cases t with
    | nil => simp at h
    | cons b t2 =>
      rw [dropLast_cons_ne a (b :: t2) (by simp)] at h
      rcases List.mem_cons.mp h with h1 | h2
      · exact h1 ▸ List.mem_cons_self a (b :: t2)
      · exact List.mem_cons_of_mem a (ih h2)

/-- C1: the entries of a completed parse partition the physical lines
exactly: the check that the first entry starts at line 1, that
`lineStart ≤ lineEnd` holds everywhere, that each entry starts where its
predecessor ended plus one (no gaps, no overlaps, increasing order), and
that each entry text splits on a line feed into `lineEnd - lineStart + 1`
lines, succeeds and ends exactly at the total physical line count plus
one. -/
theorem spec_C1 : ∀ s : List Char,
    chainCheck 1 (parseText s).entries = some ((parseText s).lineNumber + 1) := by
  intro s
  have hfold : StInv ((jsSplitCRLF s).dropLast.foldl handleLine initState) :=
    foldl_handleLine_inv _ initState
      (fun l hl => jsSplitCRLF_mem_noLF s l (mem_of_mem_dropLast _ _ hl)) StInv_init
  have hleft : '\n' ∉ (jsSplitCRLF s).getLastD [] := jsSplitCRLF_last_noLF s
  rw [show parseText s = finishParse ((jsSplitCRLF s).dropLast.foldl handleLine initState)
    ((jsSplitCRLF s).getLastD []) from rfl]
  unfold finishParse
  by_cases hemp : ((jsSplitCRLF s).getLastD []).isEmpty = true
  · rw [if_pos hemp]
    obtain ⟨hc, hn⟩ := finalize_inv _ hfold
    rw [hc, hn]
  · rw [if_neg hemp]
    obtain ⟨hc, hn⟩ := finalize_inv _ (handleLine_inv _ _ hleft hfold)
    rw [hc, hn]

/-- C2: with an entry open, an incoming line closes it and opens a new entry
exactly when it is an entry-start candidate and not a continuation line;
otherwise it is appended to the open entry.  A line with a severity token
but leading whitespace, such as `"  ERROR retrying"`, is both an entry-start
candidate and a continuation line, so it is appended (continuation wins).
The very first line of the stream (no entry open) always opens an entry
regardless of its classification. -/
theorem spec_C2 : ∀ (st : ParseState) (line : List Char),
    (st.currentEntry = none →
      handleLine st line =
        { st with lineNumber := st.lineNumber + 1,
                  currentEntry := some ⟨st.lineNumber + 1, [line]⟩ }) ∧
    (∀ ce : CurrentEntry, st.currentEntry = some ce →
      (isEntryStart line = true ∧ isContinuationLine line = false →
        handleLine st line =
          { finalizeEntry { st with lineNumber := st.lineNumber + 1 } with
              currentEntry := some ⟨st.lineNumber + 1, [line]⟩ }) ∧
      (isEntryStart line = false ∨ isContinuationLine line = true →
        handleLine st line =
          { st with lineNumber := st.lineNumber + 1,
                    currentEntry := some ⟨ce.startLine, ce.lines ++ [line]⟩ })) ∧
    (isEntryStart "  ERROR retrying".data = true ∧
      isContinuationLine "  ERROR retrying".data = true) := by
  intro st line
  refine ⟨?_, ?_, by decide, by decide⟩
  · intro h
    simp [handleLine, h]
  · intro ce hce
    constructor
    · intro ⟨hs, hc⟩
      simp [handleLine, hce, hs, hc]
    · intro hor
      rcases hor with hs | hc
      · simp [handleLine, hce, hs]
      · simp [handleLine, hce, hc]

theorem spec_C2_witness :
    (handleLine ⟨[], none, 0⟩ ['x'] = ⟨[], some ⟨1, [['x']]⟩, 1⟩) ∧
    (handleLine ⟨[], some ⟨1, [['a']]⟩, 1⟩ "ERROR boom".data =
      ⟨[⟨1, 1, ['a'], none, none⟩], some ⟨2, ["ERROR boom".data]⟩, 2⟩) ∧
    (handleLine ⟨[], some ⟨1, [['a']]⟩, 1⟩ "  ERROR retrying".data =
      ⟨[], some ⟨1, [['a'], "  ERROR retrying".data]⟩, 2⟩) :=
  ⟨(spec_C2 ⟨[], none, 0⟩ ['x']).1 rfl,
   ((spec_C2 ⟨[], some ⟨1, [['a']]⟩, 1⟩ "ERROR boom".data).2.1 ⟨1, [['a']]⟩ rfl).1
     ⟨by decide, by decide⟩,
   ((spec_C2 ⟨[], some ⟨1, [['a']]⟩, 1⟩ "  ERROR retrying".data).2.1 ⟨1, [['a']]⟩ rfl).2
     (Or.inr (by decide))⟩

/-- C3: the documented scenario input yields exactly two entries, the first
spanning lines 1-2 with severity TRACE and timestamp 2026-01-03T06:29:46.882,
the second spanning line 3 with severity ERROR, and three physical lines in
total. -/
theorem spec_C3 :
    (parseText "2026-01-03T06:29:46.882Z TRACE hello\nworld\n2026-01-03T06:29:47.000Z ERROR boom\n".data).entries =
      [⟨1, 2, "2026-01-03T06:29:46.882Z TRACE hello\nworld".data, some "TRACE".data,
         some "2026-01-03T06:29:46.882".data⟩,
       ⟨3, 3, "2026-01-03T06:29:47.000Z ERROR boom".data, some "ERROR".data,
         some "2026-01-03T06:29:47.000".data⟩] ∧
    (parseText "2026-01-03T06:29:46.882Z TRACE hello\nworld\n2026-01-03T06:29:47.000Z ERROR boom\n".data).lineNumber = 3 := by
  constructor
  · decide
  · decide

/-- C4: a finalized entry derives severity and timestamp from its first
physical line only (the result does not depend on the later lines), severity
is the first whole-word case-insensitive token of the fixed set recorded
uppercased verbatim (a matched `fatal` is recorded as FATAL, not ERROR, and
`Warning` as WARNING, not WARN), the timestamp is the first match of the
date-time pattern, and a missing match leaves the field unset rather than
failing. -/
theorem spec_C4 :
    (∀ (st : ParseState) (ce : CurrentEntry), st.currentEntry = some ce →
      ∀ (l0 : List Char) (rest : List (List Char)), ce.lines = l0 :: rest →
        (finalizeEntry st).entries =
          st.entries ++ [⟨ce.startLine, ce.startLine + ce.lines.length - 1, joinLF ce.lines,
            detectSeverity l0, detectTimestamp l0⟩]) ∧
    detectSeverity " fatal issue".data = some "FATAL".data ∧
    detectSeverity "Warning: disk full".data = some "WARNING".data ∧
    detectSeverity "info then ERROR".data = some "INFO".data ∧
    detectSeverity "nothing to see".data = none ∧
    detectTimestamp "at 2026-01-03 06:29:46.5Z and 2027-01-01T00:00:00".data =
      some "2026-01-03 06:29:46.5".data ∧
    detectTimestamp "no digits here".data = none := by
  refine ⟨?_, by decide, by decide, by decide, by decide, by decide, by decide⟩
  intro st ce hce l0 rest hl
  simp only [finalizeEntry, hce]
  rw [hl]
  simp [List.headD]

theorem spec_C4_witness :
    (finalizeEntry ⟨[], some ⟨2, [['E'], ['x']]⟩, 7⟩).entries =
      [⟨2, 3, ['E', '\n', 'x'], none, none⟩] :=
  spec_C4.1 ⟨[], some ⟨2, [['E'], ['x']]⟩, 7⟩ ⟨2, [['E'], ['x']]⟩ rfl ['E'] [['x']] rfl

/-- C9: the calling page rejects a file strictly larger than
30 * 1024 * 1024 bytes with an error message before the worker is invoked,
and hands any file at or below that size to the worker. -/
theorem spec_C9 : ∀ size : Nat,
    (size > 30 * 1024 * 1024 → handleFile true size = FileAction.rejectTooLarge) ∧
    (size ≤ 30 * 1024 * 1024 → handleFile true size = FileAction.sendToWorker) := by
  intro size
  constructor
  · intro h
    simp [handleFile, MAX_FILE_SIZE, h]
  · intro h
    simp [handleFile, MAX_FILE_SIZE, Nat.not_lt.mpr h]

theorem spec_C9_witness :
    handleFile true (30 * 1024 * 1024 + 1) = FileAction.rejectTooLarge ∧
    handleFile true 0 = FileAction.sendToWorker :=
  ⟨(spec_C9 (30 * 1024 * 1024 + 1)).1 (by omega), (spec_C9 0).2 (by omega)⟩

/-- C10: the line splitter is sound for the `SplitSound` relation — its
pieces contain no line feed, they reconstruct the input when interleaved
with separators each of which is LF or CRLF, a carriage return directly
before a line feed is always consumed with it (a piece ending in a carriage
return is never followed by a bare-LF separator), while a carriage return
not followed by a line feed stays inside its piece — and the splitter is
determined by the pieces alone: two inputs assembled from the same pieces
with any mix of LF and CRLF terminators split identically, so line counts do
not depend on the terminator choice. -/
theorem spec_C10 :
    (∀ s : List Char, SplitSound (jsSplitCRLF s) s) ∧
    (∀ (ps : List (List Char)) (t1 t2 : List Char),
      SplitSound ps t1 → SplitSound ps t2 → jsSplitCRLF t1 = jsSplitCRLF t2) :=
  ⟨jsSplitCRLF_sound,
   fun _ _ _ h1 h2 => by rw [splitSound_det h1, splitSound_det h2]⟩

theorem spec_C10_witness :
    jsSplitCRLF ('a' :: '\n' :: 'b' :: []) = jsSplitCRLF ('a' :: '\r' :: '\n' :: 'b' :: []) :=
  spec_C10.2 [['a'], ['b']] ('a' :: '\n' :: 'b' :: []) ('a' :: '\r' :: '\n' :: 'b' :: [])
    (SplitSound.stepLF ['a'] [['b']] ['b'] (by decide) (by decide)
      (SplitSound.single ['b'] (by decide)))
    (SplitSound.stepCRLF ['a'] [['b']] ['b'] (by decide)
      (SplitSound.single ['b'] (by decide)))
